import Mathlib

/-!
Verification of the Ghost Engine core (`static/js/ghost-engine.js`):
password-based authenticated encryption, the Ghost protocol binary frame
codec (`pack` / `unpack`), and the LSB steganographic codec
(`embedLSB` / `extractLSB`).

Byte buffers (JS `Uint8Array` / `Uint8ClampedArray`) are modelled as
`List Nat` with entries below 256.  JS 32-bit integer arithmetic is made
explicit with `% 2 ^ 32`; the signed interpretation of the `<<`-accumulated
length header is modelled by comparing the 32-bit pattern against `2 ^ 31`.
-/

set_option maxRecDepth 4000

instance {ε α : Type} [DecidableEq ε] [DecidableEq α] : DecidableEq (Except ε α) := fun x y =>
  match x, y with
  | .ok a, .ok b => if h : a = b then .isTrue (by rw [h]) else .isFalse (by simp [h])
  | .error e, .error f => if h : e = f then .isTrue (by rw [h]) else .isFalse (by simp [h])
  | .ok _, .error _ => .isFalse (by simp)
  | .error _, .ok _ => .isFalse (by simp)

/-! ## Protocol constants and byte-level helpers -/

/-- Protocol magic bytes `'GHST'` (`GhostEngine.MAGIC`). -/
def MAGIC : List Nat := [0x47, 0x48, 0x53, 0x54]

/-- Protocol version (`GhostEngine.VERSION`). -/
def VERSION : Nat := 1

/-- Big-endian 16-bit encoding, as written by `DataView.setUint16(_, v, false)`. -/
def u16be (v : Nat) : List Nat := [v / 2 ^ 8 % 256, v % 256]

/-- Big-endian 32-bit encoding, as written by `DataView.setUint32(_, v, false)`.
Each byte is reduced mod 256, which realises the JS truncation `v mod 2^32`. -/
def u32be (v : Nat) : List Nat :=
  [v / 2 ^ 24 % 256, v / 2 ^ 16 % 256, v / 2 ^ 8 % 256, v % 256]

/-- Big-endian 32-bit read, as done by `DataView.getUint32(off, false)`. -/
def getU32be (bs : List Nat) (off : Nat) : Nat :=
  2 ^ 24 * bs.getD off 0 + 2 ^ 16 * bs.getD (off + 1) 0 +
    2 ^ 8 * bs.getD (off + 2) 0 + bs.getD (off + 3) 0

/-- Big-endian 16-bit read, as done by `DataView.getUint16(off, false)`. -/
def getU16be (bs : List Nat) (off : Nat) : Nat :=
  2 ^ 8 * bs.getD off 0 + bs.getD (off + 1) 0

/-- `target.set(src, off)` on a typed array: overwrite `src.length` bytes of
`target` starting at `off` (the in-range case; the JS call throws when `src`
does not fit, which never happens in `pack`). -/
def bufSet (target src : List Nat) (off : Nat) : List Nat :=
  target.take off ++ src ++ target.drop (off + src.length)

/-! ## Data model -/

/-- `{ salt, nonce, ciphertext, tag }` as produced by `encryptMessage` and
consumed by `pack` / returned by `unpack`. -/
structure EncryptedMessage where
  salt : List Nat
  nonce : List Nat
  ciphertext : List Nat
  tag : List Nat
deriving DecidableEq, Repr

/-- An `ImageData`-like value: width, height and the flat RGBA channel
buffer (`data`, length `4 * width * height`, entries below 256). -/
structure ImageData where
  width : Nat
  height : Nat
  data : List Nat
deriving DecidableEq, Repr

/-! ## Protocol codec (`pack` / `unpack`) -/

/-- `GhostEngine.pack`: allocate a zero buffer of `68 + N + 16` bytes and
write magic, version, ciphertext length (big-endian), salt, nonce, skip the
10 reserved bytes, then ciphertext and tag, at the source's offsets. -/
def pack (d : EncryptedMessage) : List Nat :=
  let buf0 := List.replicate (68 + d.ciphertext.length + 16) 0
  let b1 := bufSet buf0 MAGIC 0
  let b2 := bufSet b1 (u16be VERSION) 4
  let b3 := bufSet b2 (u32be d.ciphertext.length) 6
  let b4 := bufSet b3 d.salt 10
  let b5 := bufSet b4 d.nonce 42
  let b6 := bufSet b5 d.ciphertext 68
  bufSet b6 d.tag (68 + d.ciphertext.length)

/-- The magic check of `GhostEngine.unpack` (bytes 0..3 equal `'GHST'`). -/
def magicOk (bs : List Nat) : Prop :=
  bs.getD 0 0 = 0x47 ∧ bs.getD 1 0 = 0x48 ∧ bs.getD 2 0 = 0x53 ∧ bs.getD 3 0 = 0x54

instance (bs : List Nat) : Decidable (magicOk bs) := by
  unfold magicOk; infer_instance

/-- `GhostEngine.unpack`: header-size check, magic check, big-endian field
reads, slicing of salt/nonce, "incomplete" length check, then slicing of
ciphertext and tag.  `null` is modelled as `none`. -/
def unpack (bs : List Nat) : Option EncryptedMessage :=
  if bs.length < 68 then none
  else if magicOk bs then
    -- the version field (`getU16be bs 4`) is read by the source but unused;
    -- `cipherLen` is the big-endian uint32 at offset 6
    if bs.length < 68 + getU32be bs 6 + 16 then none
    else some
      { salt := (bs.drop 10).take 32
        nonce := (bs.drop 42).take 16
        ciphertext := (bs.drop 68).take (getU32be bs 6)
        tag := (bs.drop (68 + getU32be bs 6)).take 16 }
  else none

/-! ## LSB embedding (`embedLSB`) -/

/-- Capacity in bytes: `Math.floor((width * height * 3) / 8)`. -/
def capacityBytes (w h : Nat) : Nat := w * h * 3 / 8

/-- `(pixel & ~1) | bit`: clear bit 0 of a channel byte and OR in the
payload bit.  For a byte `v` and `bit ≤ 1` this equals `2 * (v / 2) + bit`. -/
def writeLSB (v bit : Nat) : Nat := 2 * (v / 2) + bit

/-- Bit `k` (numbering all payload bits, most-significant-bit first inside
each byte) of a byte buffer: `(payload[k / 8] >> (7 - k % 8)) & 1`. -/
def bitAt (payload : List Nat) (k : Nat) : Nat :=
  payload.getD (k / 8) 0 / 2 ^ (7 - k % 8) % 2

/-- The framed payload embedded by `embedLSB`: 4-byte big-endian length
header followed by the secret bytes. -/
def fullPayload (secret : List Nat) : List Nat := u32be secret.length ++ secret

/-- The pixel loop of `embedLSB`: walk the pixel buffer four channels at a
time; for the R, G, B channels write the next unwritten payload bit into
bit 0 (skipping once all `8 * fp.length` bits are written); leave alpha
alone; break out (leaving the remaining pixels untouched) as soon as every
payload byte has been consumed.  `k` counts the bits written so far. -/
def embedLoop (fp : List Nat) : Nat → List Nat → List Nat
  | k, a :: b :: c :: d :: rest =>
    let n := 8 * fp.length
    let a' := if k < n then writeLSB a (bitAt fp k) else a
    let b' := if k + 1 < n then writeLSB b (bitAt fp (k + 1)) else b
    let c' := if k + 2 < n then writeLSB c (bitAt fp (k + 2)) else c
    a' :: b' :: c' :: d :: (if n ≤ k + 3 then rest else embedLoop fp (k + 3) rest)
  | _, l => l

/-- The `CapacityExceeded` message thrown by `embedLSB`. -/
def capacityError (cap need : Nat) : String :=
  "Data too large. Capacity: " ++ toString cap ++ " bytes, Data: " ++
    toString need ++ " bytes"

/-- `GhostEngine.embedLSB`, with the in-place mutation made explicit: the
first component is the pixel state after the call and the second the thrown
error, if any.  The capacity check precedes every write, so on failure the
image is returned unchanged. -/
def embedLSBrun (img : ImageData) (secret : List Nat) : ImageData × Option String :=
  let fp := fullPayload secret
  let cap := capacityBytes img.width img.height
  if cap < fp.length then
    (img, some (capacityError cap fp.length))
  else
    ({ img with data := embedLoop fp 0 img.data }, none)

/-! ## LSB extraction (`extractLSB`) -/

/-- The `InvalidLengthHeader` message of `extractLSB`. -/
def invalidHeaderErr : String := "Invalid steganographic header detected."

/-- The `IncompleteExtraction` message of `extractLSB`. -/
def incompleteErr : String := "Failed to extract complete message."

/-- The mutable locals of the `extractLSB` loop. -/
structure ExtSt where
  lengthHeader : Nat
  lengthBitsRead : Nat
  msgLen : Option Nat
  currentByte : Nat
  bitCount : Nat
  bytes : List Nat
  msgBytesRead : Nat
deriving DecidableEq, Repr

/-- Result of processing one colour channel inside the `extractLSB` loop:
either the updated locals, or an early exit (a `throw` or the success
`return`). -/
inductive StepRes where
  | cont (s : ExtSt)
  | halt (r : Except String (List Nat))
deriving DecidableEq

/-- One colour channel of the `extractLSB` loop body (source lines 229-259).
While `msgLen` is unset the bit is shifted into `lengthHeader` (32-bit JS
`<<` arithmetic, hence the `% 2 ^ 32`); once 32 bits are read the length is
validated — `msgLen < 0` in JS means the 32-bit pattern is at least
`2 ^ 31` — and afterwards bits are packed eight at a time into bytes until
`msgLen` bytes have been produced. -/
def chanStep (cap v : Nat) (s : ExtSt) : StepRes :=
  let bit := v % 2
  match s.msgLen with
  | none =>
    let lh := (2 * s.lengthHeader + bit) % 2 ^ 32
    let lbr := s.lengthBitsRead + 1
    if lbr = 32 then
      if 2 ^ 31 ≤ lh ∨ cap < lh then .halt (.error invalidHeaderErr)
      else .cont { s with lengthHeader := lh, lengthBitsRead := lbr, msgLen := some lh }
    else .cont { s with lengthHeader := lh, lengthBitsRead := lbr }
  | some m =>
    let cb := 2 * s.currentByte + bit
    let bc := s.bitCount + 1
    if bc = 8 then
      let bytes' := s.bytes ++ [cb]
      let mbr := s.msgBytesRead + 1
      if mbr = m then .halt (.ok bytes')
      else .cont { s with currentByte := 0, bitCount := 0, bytes := bytes', msgBytesRead := mbr }
    else .cont { s with currentByte := cb, bitCount := bc }

/-- The pixel loop of `extractLSB`: per pixel, run `chanStep` on the R, G
and B channels (alpha is skipped), propagating early exits; at the end of
each pixel the source breaks out of the loop — and thereby falls through to
the final `throw` — when `msgLen` is set and already reached.  Running out
of pixels also falls through to the final `throw`. -/
def extractLoop (cap : Nat) : List Nat → ExtSt → Except String (List Nat)
  | a :: b :: c :: _ :: rest, s =>
    match chanStep cap a s with
    | .halt r => r
    | .cont s1 =>
      match chanStep cap b s1 with
      | .halt r => r
      | .cont s2 =>
        match chanStep cap c s2 with
        | .halt r => r
        | .cont s3 =>
          match s3.msgLen with
          | some m => if s3.msgBytesRead = m then .error incompleteErr
                      else extractLoop cap rest s3
          | none => extractLoop cap rest s3
  | _, _ => .error incompleteErr

/-- Initial locals of `extractLSB`. -/
def extInit : ExtSt := ⟨0, 0, none, 0, 0, [], 0⟩

/-- `GhostEngine.extractLSB`. -/
def extractLSB (img : ImageData) : Except String (List Nat) :=
  extractLoop (capacityBytes img.width img.height) img.data extInit

/-! ## Specification helpers for the extraction loop -/

/-- The LSB of channel number `k` of a pixel buffer, in the traversal order
of both codecs (pixel-major, R then G then B, alpha skipped): channel `k`
lives at flat index `4 * (k / 3) + k % 3`. -/
def chanLSB (ps : List Nat) (k : Nat) : Nat :=
  ps.getD (4 * (k / 3) + k % 3) 0 % 2

/-- Value of `b` consecutive channel LSBs starting at channel `a`,
most-significant-bit first (the accumulator of `extractLSB`). -/
def bitsVal (ps : List Nat) (a : Nat) : Nat → Nat
  | 0 => 0
  | b + 1 => 2 * bitsVal ps a b + chanLSB ps (a + b)

/-- The `L` bytes that `extractLSB` assembles from the bits following the
32-bit length header. -/
def extractedBytes (ps : List Nat) (L : Nat) : List Nat :=
  (List.range L).map fun d => bitsVal ps (32 + 8 * d) 8

/-- Canonical loop locals after `k` channel steps over pixel buffer `ps`
(assuming no early exit happened): length-reading phase for `k < 32`,
data-reading phase afterwards. -/
def genSt (ps : List Nat) (k : Nat) : ExtSt :=
  if k < 32 then
    ⟨bitsVal ps 0 k, k, none, 0, 0, [], 0⟩
  else
    let L := bitsVal ps 0 32
    let d := (k - 32) / 8
    let r := (k - 32) % 8
    ⟨L, 32, some L, bitsVal ps (32 + 8 * d) r, r,
      (List.range d).map (fun i => bitsVal ps (32 + 8 * i) 8), d⟩

/-! ## Cryptographic pipeline -/

/-- The platform primitives used by `encryptMessage` / `decryptMessage`
(`TextEncoder`/`TextDecoder`, PBKDF2-SHA1 key derivation, AES-256-GCM),
modelled as deterministic functions.  `gcmEnc` returns the Web Crypto
`ciphertext ++ tag` buffer; `gcmDec` consumes it and returns `none` on
authentication failure. -/
structure CryptoPrims where
  utf8 : String → List Nat
  utf8Dec : List Nat → String
  derive : List Nat → List Nat → List Nat
  gcmEnc : List Nat → List Nat → List Nat → List Nat
  gcmDec : List Nat → List Nat → List Nat → Option (List Nat)

/-- `GhostEngine.encryptMessage`, with the randomly generated `salt` and
`nonce` passed explicitly: derive the key, encrypt, and split the Web
Crypto output buffer into ciphertext and 16-byte tag. -/
def encryptMessage (P : CryptoPrims) (password message : String)
    (salt nonce : List Nat) : EncryptedMessage :=
  let msgBytes := P.utf8 message
  let key := P.derive (P.utf8 password) salt
  let buf := P.gcmEnc key nonce msgBytes
  let tagOffset := buf.length - 16
  { salt := salt, nonce := nonce, ciphertext := buf.take tagOffset, tag := buf.drop tagOffset }

/-- `GhostEngine.decryptMessage`: unpack, derive the key from the frame's
salt, reassemble `ciphertext ++ tag`, decrypt and decode; the two `throw`
sites become `Except.error`. -/
def decryptMessage (P : CryptoPrims) (password : String) (packedBytes : List Nat) :
    Except String String :=
  match unpack packedBytes with
  | none => .error "Invalid Ghost Header"
  | some parts =>
    let key := P.derive (P.utf8 password) parts.salt
    match P.gcmDec key parts.nonce (parts.ciphertext ++ parts.tag) with
    | none => .error "Wrong password or corrupted data."
    | some buf => .ok (P.utf8Dec buf)

/-! ## Concrete values used by witnesses and counterexamples -/

/-- Concrete primitives satisfying the interface laws, used to instantiate
the round-trip theorem: encryption appends a 16-byte tag of zeros,
decryption strips it, text is encoded by code points. -/
def demoPrims : CryptoPrims where
  utf8 := fun s => s.data.map Char.toNat
  utf8Dec := fun l => ⟨l.map Char.ofNat⟩
  derive := fun _ _ => []
  gcmEnc := fun _ _ m => m ++ List.replicate 16 0
  gcmDec := fun _ _ c => some (c.take (c.length - 16))

/-- A concrete well-formed encrypted message. -/
def demoMsg : EncryptedMessage :=
  { salt := List.replicate 32 1, nonce := List.replicate 16 2,
    ciphertext := [9, 7], tag := List.replicate 16 3 }

/-- A 14×1 image (capacity 5 bytes). -/
def demoImg : ImageData := ⟨14, 1, List.replicate 56 7⟩

/-- A 12-pixel image (capacity 4 bytes, exactly the framing overhead). -/
def demoImg12 : ImageData := ⟨4, 3, List.replicate 48 0⟩

/-- An 11-pixel image of zeros: its declared payload length is 0. -/
def demoImg11 : ImageData := ⟨11, 1, List.replicate 44 0⟩

/-- A (physically unrealisable but model-valid) image whose capacity
`3 * 2 ^ 30 * 9 / 4` exceeds `2 ^ 31`, and whose first 32 channel LSBs read
`2 ^ 31`: width `3 * 2 ^ 16`, height `2 ^ 15`, first channel byte 1,
everything else 0. -/
def hugeImg : ImageData :=
  ⟨3 * 2 ^ 16, 2 ^ 15, 1 :: List.replicate (3 * 2 ^ 33 - 1) 0⟩

/-! # Lemmas and theorems -/

/-! ## Byte-level helper lemmas -/

lemma u16be_length (v : Nat) : (u16be v).length = 2 := rfl

lemma u32be_length (v : Nat) : (u32be v).length = 4 := rfl

lemma MAGIC_length : MAGIC.length = 4 := rfl

lemma fullPayload_length (secret : List Nat) :
    (fullPayload secret).length = 4 + secret.length := by
  simp [fullPayload, u32be]
  omega

/-- Writing a segment whose length matches the leading slot. -/
lemma bufSet_zero (Q R src : List Nat) (hlen : src.length = Q.length) :
    bufSet (Q ++ R) src 0 = src ++ R := by
  unfold bufSet
  rw [List.take_zero, List.nil_append, Nat.zero_add, List.drop_left' hlen.symm]

/-- Writing a segment that covers the whole target. -/
lemma bufSet_all (Q src : List Nat) (hlen : src.length = Q.length) :
    bufSet Q src 0 = src := by
  unfold bufSet
  rw [List.take_zero, List.nil_append, Nat.zero_add, hlen, List.drop_length, List.append_nil]

/-- Peeling a prefix off the target of `bufSet`. -/
lemma bufSet_inner (x T src : List Nat) (off off' : Nat) (h : off = x.length + off') :
    bufSet (x ++ T) src off = x ++ bufSet T src off' := by
  unfold bufSet
  subst h
  rw [List.take_append, Nat.add_assoc, List.drop_append]
  simp [List.append_assoc]

/-- `pack` written as one explicit concatenation, for well-formed messages. -/
lemma pack_eq (d : EncryptedMessage) (hs : d.salt.length = 32) (hn : d.nonce.length = 16)
    (ht : d.tag.length = 16) :
    pack d = MAGIC ++ (u16be VERSION ++ (u32be d.ciphertext.length ++ (d.salt ++
      (d.nonce ++ (List.replicate 10 0 ++ (d.ciphertext ++ d.tag)))))) := by
  obtain ⟨s, no, ct, tg⟩ := d
  simp only at hs hn ht
  simp only [pack]
  have hbuf : List.replicate (68 + ct.length + 16) 0 =
      List.replicate 4 (0 : Nat) ++ (List.replicate 2 0 ++ (List.replicate 4 0 ++
        (List.replicate 32 0 ++ (List.replicate 16 0 ++ (List.replicate 10 0 ++
          (List.replicate ct.length 0 ++ List.replicate 16 0)))))) := by
    rw [show 68 + ct.length + 16 = 4 + (2 + (4 + (32 + (16 + (10 + (ct.length + 16))))))
      from by omega]
    simp only [List.replicate_add]
  rw [hbuf]
  rw [bufSet_zero (List.replicate 4 0) _ MAGIC rfl]
  rw [bufSet_inner MAGIC _ _ 4 0 (by simp [MAGIC]),
    bufSet_zero (List.replicate 2 0) _ (u16be VERSION) rfl]
  rw [bufSet_inner MAGIC _ _ 6 2 (by simp [MAGIC]),
    bufSet_inner (u16be VERSION) _ _ 2 0 (by simp [u16be]),
    bufSet_zero (List.replicate 4 0) _ (u32be ct.length) rfl]
  rw [bufSet_inner MAGIC _ _ 10 6 (by simp [MAGIC]),
    bufSet_inner (u16be VERSION) _ _ 6 4 (by simp [u16be]),
    bufSet_inner (u32be ct.length) _ _ 4 0 (by simp [u32be]),
    bufSet_zero (List.replicate 32 0) _ s (by simp [hs])]
  rw [bufSet_inner MAGIC _ _ 42 38 (by simp [MAGIC]),
    bufSet_inner (u16be VERSION) _ _ 38 36 (by simp [u16be]),
    bufSet_inner (u32be ct.length) _ _ 36 32 (by simp [u32be]),
    bufSet_inner s _ _ 32 0 (by omega),
    bufSet_zero (List.replicate 16 0) _ no (by simp [hn])]
  rw [bufSet_inner MAGIC _ _ 68 64 (by simp [MAGIC]),
    bufSet_inner (u16be VERSION) _ _ 64 62 (by simp [u16be]),
    bufSet_inner (u32be ct.length) _ _ 62 58 (by simp [u32be]),
    bufSet_inner s _ _ 58 26 (by omega),
    bufSet_inner no _ _ 26 10 (by omega),
    bufSet_inner (List.replicate 10 0) _ _ 10 0 (by simp),
    bufSet_zero (List.replicate ct.length 0) _ ct (by simp)]
  rw [bufSet_inner MAGIC _ _ (68 + ct.length) (64 + ct.length) (by simp [MAGIC]; omega),
    bufSet_inner (u16be VERSION) _ _ (64 + ct.length) (62 + ct.length) (by simp [u16be]; omega),
    bufSet_inner (u32be ct.length) _ _ (62 + ct.length) (58 + ct.length) (by simp [u32be]; omega),
    bufSet_inner s _ _ (58 + ct.length) (26 + ct.length) (by omega),
    bufSet_inner no _ _ (26 + ct.length) (10 + ct.length) (by omega),
    bufSet_inner (List.replicate 10 0) _ _ (10 + ct.length) ct.length (by simp),
    bufSet_inner ct _ _ ct.length 0 (by omega),
    bufSet_all (List.replicate 16 0) tg (by simp [ht])]

lemma pack_length (d : EncryptedMessage) (hs : d.salt.length = 32) (hn : d.nonce.length = 16)
    (ht : d.tag.length = 16) : (pack d).length = 68 + d.ciphertext.length + 16 := by
  rw [pack_eq d hs hn ht]
  simp [MAGIC, u16be, u32be, hs, hn, ht]
  omega

lemma u32be_val (N : Nat) (h : N < 2 ^ 32) (rest : List Nat) :
    getU32be (u32be N ++ rest) 0 = N := by
  simp only [getU32be, u32be, List.cons_append, List.getD_cons_zero, List.getD_cons_succ]
  simp only [show (2:Nat) ^ 24 = 16777216 from by norm_num,
    show (2:Nat) ^ 16 = 65536 from by norm_num, show (2:Nat) ^ 8 = 256 from by norm_num]
  rw [show (2:Nat) ^ 32 = 4294967296 from by norm_num] at h
  omega

/-- A big-endian 32-bit read entirely inside the suffix. -/
lemma getU32be_shift (P l : List Nat) (off : Nat) (h : off = P.length) :
    getU32be (P ++ l) off = getU32be l 0 := by
  unfold getU32be
  subst h
  rw [List.getD_append_right _ _ _ _ (by omega), List.getD_append_right _ _ _ _ (by omega),
    List.getD_append_right _ _ _ _ (by omega), List.getD_append_right _ _ _ _ (by omega)]
  simp [Nat.sub_self, Nat.add_sub_cancel_left]

/-- `unpack` of the explicit `pack` concatenation recovers the message. -/
lemma unpack_pack (d : EncryptedMessage) (hs : d.salt.length = 32) (hn : d.nonce.length = 16)
    (ht : d.tag.length = 16) (hct : d.ciphertext.length < 2 ^ 32) :
    unpack (pack d) = some d := by
  obtain ⟨s, no, ct, tg⟩ := d
  simp only at hs hn ht hct
  rw [pack_eq _ hs hn ht]
  simp only
  set bs := MAGIC ++ (u16be VERSION ++ (u32be ct.length ++ (s ++
      (no ++ (List.replicate 10 0 ++ (ct ++ tg)))))) with hbs
  have hlen : bs.length = 84 + ct.length := by
    simp [hbs, MAGIC, u16be, u32be, hs, hn, ht]; omega
  have hmagic : magicOk bs := by
    rw [hbs]
    unfold magicOk
    refine ⟨?_, ?_, ?_, ?_⟩ <;>
      · rw [List.getD_append _ _ _ _ (by simp [MAGIC])]
        rfl
  have hget32 : getU32be bs 6 = ct.length := by
    have h6 : bs = (MAGIC ++ u16be VERSION) ++ (u32be ct.length ++ (s ++
        (no ++ (List.replicate 10 0 ++ (ct ++ tg))))) := by simp [hbs]
    have hp : (MAGIC ++ u16be VERSION).length = 6 := by simp [MAGIC, u16be]
    rw [h6, getU32be_shift _ _ _ hp.symm, u32be_val ct.length hct]
  have hsalt : (bs.drop 10).take 32 = s := by
    have h10 : bs = (MAGIC ++ u16be VERSION ++ u32be ct.length) ++ (s ++
        (no ++ (List.replicate 10 0 ++ (ct ++ tg)))) := by simp [hbs]
    rw [h10, List.drop_left' (by simp [MAGIC, u16be, u32be]), List.take_left' hs]
  have hnonce : (bs.drop 42).take 16 = no := by
    have h42 : bs = (MAGIC ++ u16be VERSION ++ u32be ct.length ++ s) ++
        (no ++ (List.replicate 10 0 ++ (ct ++ tg))) := by simp [hbs]
    rw [h42, List.drop_left' (by simp [MAGIC, u16be, u32be, hs]), List.take_left' hn]
  have hcipher : (bs.drop 68).take ct.length = ct := by
    have h68 : bs = (MAGIC ++ u16be VERSION ++ u32be ct.length ++ s ++ no ++
        List.replicate 10 0) ++ (ct ++ tg) := by simp [hbs]
    rw [h68, List.drop_left' (by simp [MAGIC, u16be, u32be, hs, hn]), List.take_left' rfl]
  have htag : (bs.drop (68 + ct.length)).take 16 = tg := by
    have h68N : bs = (MAGIC ++ u16be VERSION ++ u32be ct.length ++ s ++ no ++
        List.replicate 10 0 ++ ct) ++ tg := by simp [hbs]
    rw [h68N, List.drop_left' (by simp [MAGIC, u16be, u32be, hs, hn]; omega), ← ht,
      List.take_length]
  unfold unpack
  rw [if_neg (by omega), if_pos hmagic]
  simp only [hget32]
  rw [if_neg (by omega)]
  simp [hsalt, hnonce, hcipher, htag]

/-! ## Claims C3, C4, C5: the protocol codec -/

/-- C3: for every `EncryptedMessage` with 32-byte salt, 16-byte nonce, 16-byte
tag and ciphertext length `N < 2 ^ 32`, `pack` returns a buffer of exactly
`68 + N + 16` bytes laid out as magic `'GHST'`, version 1 as big-endian
uint16, `N` as big-endian uint32, salt, nonce, ten zero bytes, ciphertext,
tag. -/
theorem pack_layout (d : EncryptedMessage) (hs : d.salt.length = 32)
    (hn : d.nonce.length = 16) (ht : d.tag.length = 16)
    (hct : d.ciphertext.length < 2 ^ 32) :
    pack d = [0x47, 0x48, 0x53, 0x54] ++ [0, 1] ++ u32be d.ciphertext.length ++ d.salt ++
        d.nonce ++ List.replicate 10 0 ++ d.ciphertext ++ d.tag ∧
      (pack d).length = 68 + d.ciphertext.length + 16 := by
  refine ⟨?_, pack_length d hs hn ht⟩
  rw [pack_eq d hs hn ht]
  simp [MAGIC, u16be, VERSION]

/-- Witness for C3 at a concrete message. -/
theorem pack_layout_witness :
    pack demoMsg = [0x47, 0x48, 0x53, 0x54] ++ [0, 1] ++ u32be demoMsg.ciphertext.length ++
        demoMsg.salt ++ demoMsg.nonce ++ List.replicate 10 0 ++ demoMsg.ciphertext ++
        demoMsg.tag ∧
      (pack demoMsg).length = 68 + demoMsg.ciphertext.length + 16 :=
  pack_layout demoMsg (by decide) (by decide) (by decide) (by decide)

/-- C4: `unpack` returns `none` iff the buffer is shorter than 84 bytes, or
its first four bytes differ from `'GHST'`, or the buffer is shorter than
`68 + L + 16` where `L` is the big-endian uint32 at offset 6; otherwise it
returns the salt (bytes 10..41), nonce (bytes 42..57), ciphertext (`L`
bytes from offset 68) and tag (the following 16 bytes). -/
theorem unpack_spec (bs : List Nat) :
    (unpack bs = none ↔
      bs.length < 84 ∨ ¬ magicOk bs ∨ bs.length < 68 + getU32be bs 6 + 16) ∧
    (unpack bs ≠ none →
      unpack bs = some
        { salt := (bs.drop 10).take 32
          nonce := (bs.drop 42).take 16
          ciphertext := (bs.drop 68).take (getU32be bs 6)
          tag := (bs.drop (68 + getU32be bs 6)).take 16 }) := by
  unfold unpack
  constructor
  · split_ifs with h1 h2 h3
    · simp only [eq_self_iff_true, true_iff]
      left; omega
    · simp only [eq_self_iff_true, true_iff]
      right; right; exact h3
    · simp only [reduceCtorEq, false_iff]
      push_neg
      refine ⟨by omega, h2, by omega⟩
    · simp only [eq_self_iff_true, true_iff]
      right; left; exact h2
  · split_ifs with h1 h2 h3
    · intro h; exact absurd rfl h
    · intro h; exact absurd rfl h
    · intro _; rfl
    · intro h; exact absurd rfl h

/-- Witness for C4: the success branch on a packed demo message. -/
theorem unpack_spec_witness :
    unpack (pack demoMsg) = some
      { salt := ((pack demoMsg).drop 10).take 32
        nonce := ((pack demoMsg).drop 42).take 16
        ciphertext := ((pack demoMsg).drop 68).take (getU32be (pack demoMsg) 6)
        tag := ((pack demoMsg).drop (68 + getU32be (pack demoMsg) 6)).take 16 } :=
  (unpack_spec (pack demoMsg)).2 (by decide)

/-- C5: `unpack` after `pack` is the identity on well-formed messages
(32-byte salt, 16-byte nonce, 16-byte tag, ciphertext length below
`2 ^ 32`). -/
theorem unpack_pack_id (d : EncryptedMessage) (hs : d.salt.length = 32)
    (hn : d.nonce.length = 16) (ht : d.tag.length = 16)
    (hct : d.ciphertext.length < 2 ^ 32) :
    unpack (pack d) = some d :=
  unpack_pack d hs hn ht hct

/-- Witness for C5 at a concrete message. -/
theorem unpack_pack_id_witness : unpack (pack demoMsg) = some demoMsg :=
  unpack_pack_id demoMsg (by decide) (by decide) (by decide) (by decide)

/-! ## Claim C1: the encryption pipeline round-trip -/

/-- C1: for every password and plaintext (with a UTF-8 byte length that fits
the frame's 32-bit length field), decrypting the packed encryption with the
same password returns the plaintext, for any platform primitives that are
deterministic and satisfy the decrypt-of-encrypt identity (`gcmEnc`
produces `ciphertext ++ tag` with a 16-byte tag, `gcmDec` inverts it, text
decoding inverts encoding).  The randomly drawn salt and nonce of
`encryptMessage` are passed explicitly. -/
theorem decrypt_pack_encrypt_roundtrip (P : CryptoPrims) (password M : String)
    (salt nonce : List Nat) (hs : salt.length = 32) (hn : nonce.length = 16)
    (hlen : ∀ k n m, (P.gcmEnc k n m).length = m.length + 16)
    (hdec : ∀ k n m, P.gcmDec k n (P.gcmEnc k n m) = some m)
    (hutf : ∀ s, P.utf8Dec (P.utf8 s) = s)
    (hm : (P.utf8 M).length < 2 ^ 32) :
    decryptMessage P password (pack (encryptMessage P password M salt nonce)) = .ok M := by
  set d := encryptMessage P password M salt nonce with hd
  set key := P.derive (P.utf8 password) salt with hkey
  set buf := P.gcmEnc key nonce (P.utf8 M) with hbufdef
  have hbuf : buf.length = (P.utf8 M).length + 16 := hlen _ _ _
  have hds : d.salt = salt := rfl
  have hdn : d.nonce = nonce := rfl
  have hctlen : d.ciphertext.length = (P.utf8 M).length := by
    simp only [hd, encryptMessage]
    simp [List.length_take, ← hkey, ← hbufdef, hbuf]
  have htag : d.tag.length = 16 := by
    simp only [hd, encryptMessage]
    simp [List.length_drop, ← hkey, ← hbufdef, hbuf]
  have hct : d.ciphertext ++ d.tag = buf := by
    simp only [hd, encryptMessage]
    simp [← hkey, ← hbufdef, List.take_append_drop]
  have hun : unpack (pack d) = some d :=
    unpack_pack d (hds ▸ hs) (hdn ▸ hn) htag (by rw [hctlen]; exact hm)
  unfold decryptMessage
  rw [hun]
  simp only [hds, hdn, hct, ← hkey, hdec, hutf]

/-- Witness for C1: concrete primitives (encryption appends a zero tag),
password, message, salt and nonce. -/
theorem decrypt_pack_encrypt_roundtrip_witness :
    decryptMessage demoPrims "pw" (pack (encryptMessage demoPrims "pw" "hi"
      (List.replicate 32 0) (List.replicate 16 0))) = .ok "hi" :=
  decrypt_pack_encrypt_roundtrip demoPrims "pw" "hi" (List.replicate 32 0)
    (List.replicate 16 0) (by decide) (by decide)
    (fun k n m => by simp [demoPrims])
    (fun k n m => by simp [demoPrims])
    (fun s => by cases s; simp [demoPrims, Function.comp_def])
    (by decide)

/-! ## Embedding lemmas -/

lemma bitAt_lt_two (fp : List Nat) (k : Nat) : bitAt fp k < 2 :=
  Nat.mod_lt _ (by omega)

lemma writeLSB_div_two (v b : Nat) (hb : b < 2) : writeLSB v b / 2 = v / 2 := by
  unfold writeLSB; omega

lemma writeLSB_mod_two (v b : Nat) (hb : b < 2) : writeLSB v b % 2 = b := by
  unfold writeLSB; omega

lemma embedLoop_length (fp : List Nat) : ∀ (n : Nat) (ps : List Nat), ps.length ≤ n →
    ∀ k, (embedLoop fp k ps).length = ps.length := by
  intro n
  induction n with
  | zero =>
    intro ps h k
    have hnil : ps = [] := List.length_eq_zero.mp (by omega)
    subst hnil
    rfl
  | succ n ih =>
    intro ps h k
    match ps with
    | [] => rfl
    | [a] => rfl
    | [a, b] => rfl
    | [a, b, c] => rfl
    | a :: b :: c :: d :: rest =>
      simp only [List.length_cons] at h
      simp only [embedLoop, List.length_cons]
      split
      · rfl
      · rw [ih rest (by omega) (k + 3)]

lemma embedLoop_getD (fp : List Nat) : ∀ (n : Nat) (ps : List Nat), ps.length ≤ n →
    ps.length % 4 = 0 → ∀ k i, i < ps.length →
    (embedLoop fp k ps).getD i 0 =
      if i % 4 < 3 ∧ k + (3 * (i / 4) + i % 4) < 8 * fp.length
      then writeLSB (ps.getD i 0) (bitAt fp (k + (3 * (i / 4) + i % 4)))
      else ps.getD i 0 := by
  intro n
  induction n with
  | zero =>
    intro ps h hps4 k i hi
    omega
  | succ n ih =>
    intro ps h hps4 k i hi
    match ps with
    | [] => simp at hi
    | [a] => simp at hps4
    | [a, b] => simp at hps4
    | [a, b, c] => simp at hps4
    | a :: b :: c :: d :: rest =>
      simp only [List.length_cons] at h hi hps4
      simp only [embedLoop]
      obtain (_ | (_ | (_ | (_ | i)))) := i
      · simp only [List.getD_cons_zero]
        norm_num
      · simp only [List.getD_cons_succ, List.getD_cons_zero]
        norm_num
      · simp only [List.getD_cons_succ, List.getD_cons_zero]
        norm_num
      · simp only [List.getD_cons_succ, List.getD_cons_zero]
        rw [if_neg (by omega)]
      · simp only [List.getD_cons_succ]
        have e2 : (i + 4) / 4 = i / 4 + 1 := by omega
        have e1 : (i + 4) % 4 = i % 4 := by omega
        split
        · rw [e1, e2, if_neg (by omega)]
        · rw [ih rest (by omega) (by omega) (k + 3) i (by omega), e1, e2]
          have e3 : k + (3 * (i / 4 + 1) + i % 4) = k + 3 + (3 * (i / 4) + i % 4) := by ring
          rw [e3]

lemma embedLSBrun_within (img : ImageData) (secret : List Nat)
    (h : 4 + secret.length ≤ capacityBytes img.width img.height) :
    embedLSBrun img secret =
      ({ img with data := embedLoop (fullPayload secret) 0 img.data }, none) := by
  unfold embedLSBrun
  rw [if_neg (by rw [fullPayload_length]; omega)]

/-! ## Claims C6, C7, C8: embedding -/

/-- C6: `embedLSB` succeeds iff `4 + payload.length ≤ floor(W*H*3/8)`; when
it fails, it fails with the `CapacityExceeded` error reporting both
values.  In particular it succeeds exactly at the boundary and fails one
byte over it. -/
theorem embed_capacity_iff (img : ImageData) (secret : List Nat) :
    ((embedLSBrun img secret).2 = none ↔
      4 + secret.length ≤ capacityBytes img.width img.height) ∧
    (capacityBytes img.width img.height < 4 + secret.length →
      (embedLSBrun img secret).2 =
        some (capacityError (capacityBytes img.width img.height) (4 + secret.length))) := by
  unfold embedLSBrun
  simp only [fullPayload_length]
  split_ifs with h
  · exact ⟨by simp; omega, fun _ => rfl⟩
  · exact ⟨by simp; omega, fun hc => absurd hc (by omega)⟩

/-- Witness for C6: a 12-pixel image has capacity 4, so a 0-byte payload
fits exactly and a 1-byte payload is rejected. -/
theorem embed_capacity_iff_witness :
    ((embedLSBrun demoImg12 []).2 = none ↔ 4 + 0 ≤ capacityBytes 4 3) ∧
    (capacityBytes 4 3 < 4 + 0 →
      (embedLSBrun demoImg12 []).2 = some (capacityError (capacityBytes 4 3) (4 + 0))) :=
  embed_capacity_iff demoImg12 []

/-- C7: when `embedLSB` fails with `CapacityExceeded`, the image is
returned untouched — the capacity check precedes every pixel write. -/
theorem embed_fail_no_mutation (img : ImageData) (secret : List Nat) (e : String)
    (h : (embedLSBrun img secret).2 = some e) : (embedLSBrun img secret).1 = img := by
  simp only [embedLSBrun] at h ⊢
  split_ifs at h ⊢ with hc
  · rfl

/-- Witness for C7: a 1-byte payload does not fit a 12-pixel image and the
pixel buffer survives unchanged. -/
theorem embed_fail_no_mutation_witness : (embedLSBrun demoImg12 [5]).1 = demoImg12 :=
  embed_fail_no_mutation demoImg12 [5]
    (capacityError (capacityBytes 4 3) 5) (by decide)

/-- C8: for a payload within capacity, `embedLSB` keeps the buffer length,
never changes bits 1..7 of any channel (each byte changes by at most 1,
expressed as equality of the quotients by 2), leaves every alpha byte and
every channel at or beyond bit position `8 * (4 + payload.length)` intact,
and sets the LSB of each earlier R/G/B channel to the corresponding framed
payload bit. -/
theorem embed_frame_effect (img : ImageData) (secret : List Nat) (i : Nat)
    (hwf : img.data.length = 4 * (img.width * img.height))
    (hcap : 4 + secret.length ≤ capacityBytes img.width img.height)
    (hi : i < img.data.length) :
    (embedLSBrun img secret).1.data.length = img.data.length ∧
    (embedLSBrun img secret).1.data.getD i 0 / 2 = img.data.getD i 0 / 2 ∧
    (i % 4 = 3 → (embedLSBrun img secret).1.data.getD i 0 = img.data.getD i 0) ∧
    (8 * (4 + secret.length) ≤ 3 * (i / 4) + i % 4 →
      (embedLSBrun img secret).1.data.getD i 0 = img.data.getD i 0) ∧
    (i % 4 < 3 → 3 * (i / 4) + i % 4 < 8 * (4 + secret.length) →
      (embedLSBrun img secret).1.data.getD i 0 =
        writeLSB (img.data.getD i 0) (bitAt (fullPayload secret) (3 * (i / 4) + i % 4))) := by
  rw [embedLSBrun_within img secret hcap]
  simp only
  have hchar := embedLoop_getD (fullPayload secret) img.data.length img.data le_rfl
    (by rw [hwf]; omega) 0 i hi
  rw [Nat.zero_add] at hchar
  have hfp : (fullPayload secret).length = 4 + secret.length := fullPayload_length secret
  refine ⟨embedLoop_length _ img.data.length img.data le_rfl 0, ?_, ?_, ?_, ?_⟩
  · rw [hchar]
    split_ifs with hc
    · exact writeLSB_div_two _ _ (bitAt_lt_two _ _)
    · rfl
  · intro h3
    rw [hchar, if_neg (by omega)]
  · intro hbeyond
    rw [hchar, if_neg (by rw [hfp]; omega)]
  · intro hrgb hwithin
    rw [hchar, if_pos ⟨hrgb, by rw [hfp]; omega⟩]

/-- Witness for C8 at a concrete image, payload and channel index. -/
theorem embed_frame_effect_witness :
    (embedLSBrun demoImg [202]).1.data.length = demoImg.data.length ∧
    (embedLSBrun demoImg [202]).1.data.getD 5 0 / 2 = demoImg.data.getD 5 0 / 2 ∧
    (5 % 4 = 3 → (embedLSBrun demoImg [202]).1.data.getD 5 0 = demoImg.data.getD 5 0) ∧
    (8 * (4 + 1) ≤ 3 * (5 / 4) + 5 % 4 →
      (embedLSBrun demoImg [202]).1.data.getD 5 0 = demoImg.data.getD 5 0) ∧
    (5 % 4 < 3 → 3 * (5 / 4) + 5 % 4 < 8 * (4 + 1) →
      (embedLSBrun demoImg [202]).1.data.getD 5 0 =
        writeLSB (demoImg.data.getD 5 0) (bitAt (fullPayload [202]) (3 * (5 / 4) + 5 % 4))) :=
  embed_frame_effect demoImg [202] 5 (by decide) (by decide) (by decide)

/-! ## Extraction loop lemmas -/

lemma chanLSB_lt_two (ps : List Nat) (k : Nat) : chanLSB ps k < 2 :=
  Nat.mod_lt _ (by omega)

lemma bitsVal_lt (ps : List Nat) (a : Nat) : ∀ b, bitsVal ps a b < 2 ^ b := by
  intro b
  induction b with
  | zero => simp [bitsVal]
  | succ b ih =>
    have hb := chanLSB_lt_two ps (a + b)
    have h2 : 2 ^ (b + 1) = 2 * 2 ^ b := by ring
    simp only [bitsVal]
    omega

lemma genSt_zero (ps : List Nat) : genSt ps 0 = extInit := by
  simp [genSt, extInit, bitsVal]

/-- A length-phase channel step (bits 0..30). -/
lemma chanStep_len (cap : Nat) (ps : List Nat) (k : Nat) (hk : k < 31) (v : Nat)
    (hv : v % 2 = chanLSB ps k) :
    chanStep cap v (genSt ps k) = .cont (genSt ps (k + 1)) := by
  have hlt := bitsVal_lt ps 0 k
  have hpow : 2 ^ k ≤ 2 ^ 30 := Nat.pow_le_pow_right (by omega) (by omega)
  have h30 : (2 : Nat) ^ 30 = 1073741824 := by norm_num
  have h32 : (2 : Nat) ^ 32 = 4294967296 := by norm_num
  unfold chanStep genSt
  rw [if_pos (show k < 32 by omega), if_pos (show k + 1 < 32 by omega)]
  simp only [hv]
  rw [Nat.mod_eq_of_lt (by omega)]
  rw [if_neg (show ¬ k + 1 = 32 by omega)]
  simp [bitsVal, Nat.zero_add]

/-- The validating 32nd length bit, invalid case: the 32-bit pattern reads
as a negative JS number (`≥ 2 ^ 31`) or exceeds the capacity. -/
lemma chanStep_31_invalid (cap : Nat) (ps : List Nat) (v : Nat)
    (hv : v % 2 = chanLSB ps 31)
    (hbad : 2 ^ 31 ≤ bitsVal ps 0 32 ∨ cap < bitsVal ps 0 32) :
    chanStep cap v (genSt ps 31) = .halt (.error invalidHeaderErr) := by
  have hlt := bitsVal_lt ps 0 32
  have h32 : (2 : Nat) ^ 32 = 4294967296 := by norm_num
  have hval : (2 * bitsVal ps 0 31 + chanLSB ps (0 + 31)) % 2 ^ 32 = bitsVal ps 0 32 := by
    have : bitsVal ps 0 32 = 2 * bitsVal ps 0 31 + chanLSB ps (0 + 31) := rfl
    rw [← this, Nat.mod_eq_of_lt (by omega)]
  unfold chanStep genSt
  rw [if_pos (show (31 : Nat) < 32 by omega)]
  simp only [hv, Nat.zero_add] at hval ⊢
  rw [hval]
  simp only [if_true]
  rw [if_pos hbad]

/-- The validating 32nd length bit, valid case. -/
lemma chanStep_31_valid (cap : Nat) (ps : List Nat) (v : Nat)
    (hv : v % 2 = chanLSB ps 31)
    (h31 : bitsVal ps 0 32 < 2 ^ 31) (hcap : bitsVal ps 0 32 ≤ cap) :
    chanStep cap v (genSt ps 31) = .cont (genSt ps 32) := by
  have hlt := bitsVal_lt ps 0 32
  have h32 : (2 : Nat) ^ 32 = 4294967296 := by norm_num
  have hval : (2 * bitsVal ps 0 31 + chanLSB ps (0 + 31)) % 2 ^ 32 = bitsVal ps 0 32 := by
    have : bitsVal ps 0 32 = 2 * bitsVal ps 0 31 + chanLSB ps (0 + 31) := rfl
    rw [← this, Nat.mod_eq_of_lt (by omega)]
  have h31l : (2 : Nat) ^ 31 = 2147483648 := by norm_num
  unfold chanStep genSt
  rw [if_pos (show (31 : Nat) < 32 by omega), if_neg (show ¬ (32 : Nat) < 32 by omega)]
  simp only [hv, Nat.zero_add] at hval ⊢
  rw [hval]
  simp only [if_true]
  rw [if_neg (by omega)]
  norm_num [bitsVal]

/-- A data-phase channel step that does not finish the message. -/
lemma chanStep_data (cap : Nat) (ps : List Nat) (k : Nat) (hk : 32 ≤ k)
    (hlt : k + 1 < 32 + 8 * bitsVal ps 0 32) (v : Nat)
    (hv : v % 2 = chanLSB ps k) :
    chanStep cap v (genSt ps k) = .cont (genSt ps (k + 1)) := by
  set L := bitsVal ps 0 32 with hL
  set d := (k - 32) / 8 with hd
  set r := (k - 32) % 8 with hr
  have hkdr : k = 32 + 8 * d + r ∧ r < 8 := by omega
  have hcb : 2 * bitsVal ps (32 + 8 * d) r + chanLSB ps k
      = bitsVal ps (32 + 8 * d) (r + 1) := by
    have : chanLSB ps (32 + 8 * d + r) = chanLSB ps k := by rw [← hkdr.1]
    simp only [bitsVal, this]
  unfold chanStep genSt
  rw [if_neg (show ¬ k < 32 by omega), if_neg (show ¬ k + 1 < 32 by omega)]
  simp only [hv, ← hL, ← hd, ← hr]
  by_cases hr7 : r = 7
  · rw [if_pos (by omega)]
    have hd1 : d + 1 < L := by omega
    rw [if_neg (by omega)]
    have e1 : (k + 1 - 32) / 8 = d + 1 := by omega
    have e2 : (k + 1 - 32) % 8 = 0 := by omega
    rw [hcb, e1, e2]
    have e3 : r + 1 = 8 := by omega
    rw [e3]
    simp [List.range_succ, bitsVal]
  · rw [if_neg (by omega)]
    have e1 : (k + 1 - 32) / 8 = d := by omega
    have e2 : (k + 1 - 32) % 8 = r + 1 := by omega
    rw [hcb, e1, e2]

/-- The final data-phase channel step: the last byte completes and the loop
returns the extracted bytes. -/
lemma chanStep_final (cap : Nat) (ps : List Nat) (k : Nat) (hk : 32 ≤ k)
    (heq : k + 1 = 32 + 8 * bitsVal ps 0 32) (v : Nat)
    (hv : v % 2 = chanLSB ps k) :
    chanStep cap v (genSt ps k) = .halt (.ok (extractedBytes ps (bitsVal ps 0 32))) := by
  set L := bitsVal ps 0 32 with hL
  set d := (k - 32) / 8 with hd
  set r := (k - 32) % 8 with hr
  have hkdr : k = 32 + 8 * d + r ∧ r = 7 ∧ d + 1 = L := by omega
  have hcb : 2 * bitsVal ps (32 + 8 * d) r + chanLSB ps k
      = bitsVal ps (32 + 8 * d) (r + 1) := by
    have : chanLSB ps (32 + 8 * d + r) = chanLSB ps k := by rw [← hkdr.1]
    simp only [bitsVal, this]
  unfold chanStep genSt
  rw [if_neg (show ¬ k < 32 by omega)]
  simp only [hv, ← hL, ← hd, ← hr]
  rw [if_pos (by omega), if_pos (by omega)]
  rw [hcb]
  have e3 : r + 1 = 8 := by omega
  rw [e3]
  unfold extractedBytes
  rw [show (List.range L).map (fun i => bitsVal ps (32 + 8 * i) 8)
      = (List.range (d + 1)).map (fun i => bitsVal ps (32 + 8 * i) 8) from by rw [hkdr.2.2]]
  simp [List.range_succ]

/-- Channel `3 * p + j` of the traversal lives at flat index `4 * p + j`. -/
lemma chanLSB_eq (ps : List Nat) (p j : Nat) (hj : j < 3) :
    ps.getD (4 * p + j) 0 % 2 = chanLSB ps (3 * p + j) := by
  unfold chanLSB
  have e : 4 * ((3 * p + j) / 3) + (3 * p + j) % 3 = 4 * p + j := by omega
  rw [e]

/-- Exposing one pixel (four channel bytes) of the buffer. -/
lemma drop_four (ps : List Nat) (p : Nat) (h : 4 * p + 4 ≤ ps.length) :
    ps.drop (4 * p) = ps.getD (4 * p) 0 :: ps.getD (4 * p + 1) 0 :: ps.getD (4 * p + 2) 0 ::
      ps.getD (4 * p + 3) 0 :: ps.drop (4 * p + 4) := by
  rw [List.drop_eq_getElem_cons (show 4 * p < ps.length by omega),
    List.drop_eq_getElem_cons (show 4 * p + 1 < ps.length by omega),
    List.drop_eq_getElem_cons (show 4 * p + 1 + 1 < ps.length by omega),
    List.drop_eq_getElem_cons (show 4 * p + 1 + 1 + 1 < ps.length by omega)]
  rw [List.getD_eq_getElem _ _ (show 4 * p < ps.length by omega),
    List.getD_eq_getElem _ _ (show 4 * p + 1 < ps.length by omega),
    List.getD_eq_getElem _ _ (show 4 * p + 2 < ps.length by omega),
    List.getD_eq_getElem _ _ (show 4 * p + 3 < ps.length by omega)]

/-- Advancing the extraction loop across one whole pixel when no early exit
occurs inside it. -/
lemma extractLoop_pixel (cap : Nat) (ps : List Nat) (p : Nat)
    (hpix : 4 * p + 4 ≤ ps.length)
    (hval : bitsVal ps 0 32 < 2 ^ 31 ∧ bitsVal ps 0 32 ≤ cap ∨ 3 * p + 3 ≤ 30)
    (hT : 3 * p + 3 < 32 + 8 * bitsVal ps 0 32) :
    extractLoop cap (ps.drop (4 * p)) (genSt ps (3 * p)) =
      extractLoop cap (ps.drop (4 * p + 4)) (genSt ps (3 * p + 3)) := by
  have hv0 : ps.getD (4 * p) 0 % 2 = chanLSB ps (3 * p) := by
    simpa using chanLSB_eq ps p 0 (by omega)
  have hv1 : ps.getD (4 * p + 1) 0 % 2 = chanLSB ps (3 * p + 1) := chanLSB_eq ps p 1 (by omega)
  have hv2 : ps.getD (4 * p + 2) 0 % 2 = chanLSB ps (3 * p + 2) := chanLSB_eq ps p 2 (by omega)
  rw [drop_four ps p hpix]
  by_cases hp : 3 * p + 3 ≤ 30
  · -- a pure length-phase pixel
    have h0 := chanStep_len cap ps (3 * p) (by omega) _ hv0
    have h1 : chanStep cap (ps.getD (4 * p + 1) 0) (genSt ps (3 * p + 1))
        = .cont (genSt ps (3 * p + 2)) := by
      have := chanStep_len cap ps (3 * p + 1) (by omega) _ hv1
      rwa [show 3 * p + 1 + 1 = 3 * p + 2 from by ring] at this
    have h2 : chanStep cap (ps.getD (4 * p + 2) 0) (genSt ps (3 * p + 2))
        = .cont (genSt ps (3 * p + 3)) := by
      have := chanStep_len cap ps (3 * p + 2) (by omega) _ hv2
      rwa [show 3 * p + 2 + 1 = 3 * p + 3 from by ring] at this
    have hm : (genSt ps (3 * p + 3)).msgLen = none := by
      unfold genSt
      rw [if_pos (by omega)]
    simp only [extractLoop, h0, h1, h2, hm]
  · have hcv : bitsVal ps 0 32 < 2 ^ 31 ∧ bitsVal ps 0 32 ≤ cap := by
      rcases hval with h | h
      · exact h
      · omega
    have hsteps : chanStep cap (ps.getD (4 * p) 0) (genSt ps (3 * p))
          = .cont (genSt ps (3 * p + 1)) ∧
        chanStep cap (ps.getD (4 * p + 1) 0) (genSt ps (3 * p + 1))
          = .cont (genSt ps (3 * p + 2)) ∧
        chanStep cap (ps.getD (4 * p + 2) 0) (genSt ps (3 * p + 2))
          = .cont (genSt ps (3 * p + 3)) := by
      rcases (by omega : 3 * p = 30 ∨ 33 ≤ 3 * p) with h30 | h33
      · refine ⟨chanStep_len cap ps (3 * p) (by omega) _ hv0, ?_, ?_⟩
        · have := chanStep_31_valid cap ps (ps.getD (4 * p + 1) 0)
            (by rw [show (31 : Nat) = 3 * p + 1 from by omega]; exact hv1) hcv.1 hcv.2
          rwa [show (31 : Nat) = 3 * p + 1 from by omega,
            show (32 : Nat) = 3 * p + 2 from by omega] at this
        · have := chanStep_data cap ps (3 * p + 2) (by omega) (by omega) _ hv2
          rwa [show 3 * p + 2 + 1 = 3 * p + 3 from by ring] at this
      · refine ⟨chanStep_data cap ps (3 * p) (by omega) (by omega) _ hv0, ?_, ?_⟩
        · have := chanStep_data cap ps (3 * p + 1) (by omega) (by omega) _ hv1
          rwa [show 3 * p + 1 + 1 = 3 * p + 2 from by ring] at this
        · have := chanStep_data cap ps (3 * p + 2) (by omega) (by omega) _ hv2
          rwa [show 3 * p + 2 + 1 = 3 * p + 3 from by ring] at this
    obtain ⟨h0, h1, h2⟩ := hsteps
    have hm : (genSt ps (3 * p + 3)).msgLen = some (bitsVal ps 0 32) := by
      unfold genSt
      rw [if_neg (by omega)]
    have hmb : (genSt ps (3 * p + 3)).msgBytesRead = (3 * p + 3 - 32) / 8 := by
      unfold genSt
      rw [if_neg (by omega)]
    simp only [extractLoop, h0, h1, h2, hm, hmb]
    rw [if_neg (by omega)]

/-- Advancing from the start across the first ten (pure length-phase)
pixels. -/
lemma extractLoop_first_ten (cap : Nat) (ps : List Nat) (hlen : 44 ≤ ps.length) :
    extractLoop cap ps extInit = extractLoop cap (ps.drop 40) (genSt ps 30) := by
  have step : ∀ p, p < 10 →
      extractLoop cap (ps.drop (4 * p)) (genSt ps (3 * p)) =
        extractLoop cap (ps.drop (4 * p + 4)) (genSt ps (3 * p + 3)) := by
    intro p hp
    exact extractLoop_pixel cap ps p (by omega) (Or.inr (by omega)) (by omega)
  have e0 : extractLoop cap ps extInit = extractLoop cap (ps.drop 4) (genSt ps 3) :=
    step 0 (by omega)
  have e1 : extractLoop cap (ps.drop 4) (genSt ps 3)
      = extractLoop cap (ps.drop 8) (genSt ps 6) := step 1 (by omega)
  have e2 : extractLoop cap (ps.drop 8) (genSt ps 6)
      = extractLoop cap (ps.drop 12) (genSt ps 9) := step 2 (by omega)
  have e3 : extractLoop cap (ps.drop 12) (genSt ps 9)
      = extractLoop cap (ps.drop 16) (genSt ps 12) := step 3 (by omega)
  have e4 : extractLoop cap (ps.drop 16) (genSt ps 12)
      = extractLoop cap (ps.drop 20) (genSt ps 15) := step 4 (by omega)
  have e5 : extractLoop cap (ps.drop 20) (genSt ps 15)
      = extractLoop cap (ps.drop 24) (genSt ps 18) := step 5 (by omega)
  have e6 : extractLoop cap (ps.drop 24) (genSt ps 18)
      = extractLoop cap (ps.drop 28) (genSt ps 21) := step 6 (by omega)
  have e7 : extractLoop cap (ps.drop 28) (genSt ps 21)
      = extractLoop cap (ps.drop 32) (genSt ps 24) := step 7 (by omega)
  have e8 : extractLoop cap (ps.drop 32) (genSt ps 24)
      = extractLoop cap (ps.drop 36) (genSt ps 27) := step 8 (by omega)
  have e9 : extractLoop cap (ps.drop 36) (genSt ps 27)
      = extractLoop cap (ps.drop 40) (genSt ps 30) := step 9 (by omega)
  rw [e0, e1, e2, e3, e4, e5, e6, e7, e8, e9]

/-- When the 32-bit length header is invalid (`≥ 2 ^ 31`, i.e. negative as
a JS int32, or exceeding the capacity), extraction fails with
`invalidHeaderErr` during the eleventh pixel. -/
lemma extractLoop_invalid (cap : Nat) (ps : List Nat)
    (hbad : 2 ^ 31 ≤ bitsVal ps 0 32 ∨ cap < bitsVal ps 0 32)
    (hlen : 44 ≤ ps.length) :
    extractLoop cap ps extInit = .error invalidHeaderErr := by
  rw [extractLoop_first_ten cap ps hlen]
  have hd : ps.drop 40 = ps.getD 40 0 :: ps.getD 41 0 :: ps.getD 42 0 :: ps.getD 43 0 ::
      ps.drop 44 := drop_four ps 10 (by omega)
  rw [hd]
  have hv0 : ps.getD 40 0 % 2 = chanLSB ps 30 := chanLSB_eq ps 10 0 (by omega)
  have hv1 : ps.getD 41 0 % 2 = chanLSB ps 31 := chanLSB_eq ps 10 1 (by omega)
  have h0 : chanStep cap (ps.getD 40 0) (genSt ps 30) = .cont (genSt ps 31) :=
    chanStep_len cap ps 30 (by omega) _ hv0
  have h1 := chanStep_31_invalid cap ps _ hv1 hbad
  simp only [extractLoop, h0, h1]

/-- When the declared length is zero (which always passes the validity
check), extraction breaks out at the end of the eleventh pixel and fails
with `incompleteErr`: an empty payload is never returned. -/
lemma extractLoop_len_zero (cap : Nat) (ps : List Nat)
    (hL : bitsVal ps 0 32 = 0) (hlen : 44 ≤ ps.length) :
    extractLoop cap ps extInit = .error incompleteErr := by
  rw [extractLoop_first_ten cap ps hlen]
  have hd : ps.drop 40 = ps.getD 40 0 :: ps.getD 41 0 :: ps.getD 42 0 :: ps.getD 43 0 ::
      ps.drop 44 := drop_four ps 10 (by omega)
  rw [hd]
  have hv0 : ps.getD 40 0 % 2 = chanLSB ps 30 := chanLSB_eq ps 10 0 (by omega)
  have hv1 : ps.getD 41 0 % 2 = chanLSB ps 31 := chanLSB_eq ps 10 1 (by omega)
  have h0 : chanStep cap (ps.getD 40 0) (genSt ps 30) = .cont (genSt ps 31) :=
    chanStep_len cap ps 30 (by omega) _ hv0
  have h1 : chanStep cap (ps.getD 41 0) (genSt ps 31) = .cont (genSt ps 32) :=
    chanStep_31_valid cap ps _ hv1 (by rw [hL]; norm_num) (by rw [hL]; omega)
  have hst32 : genSt ps 32 = ⟨0, 32, some 0, 0, 0, [], 0⟩ := by
    unfold genSt
    rw [if_neg (by omega), hL]
    rfl
  have h2 : chanStep cap (ps.getD 42 0) (genSt ps 32)
      = .cont ⟨0, 32, some 0, ps.getD 42 0 % 2, 1, [], 0⟩ := by
    rw [hst32]
    unfold chanStep
    norm_num
  simp only [extractLoop, h0, h1, h2]
  rfl

/-- When the declared length `L` is valid and nonzero and all `32 + 8 * L`
bits fit in the channel stream, extraction succeeds with the assembled
bytes. -/
lemma extractLoop_ok (cap : Nat) (ps : List Nat) (h4 : ps.length % 4 = 0)
    (hone : 1 ≤ bitsVal ps 0 32) (h31 : bitsVal ps 0 32 < 2 ^ 31)
    (hcap : bitsVal ps 0 32 ≤ cap)
    (hT : 32 + 8 * bitsVal ps 0 32 ≤ 3 * (ps.length / 4)) :
    extractLoop cap ps extInit = .ok (extractedBytes ps (bitsVal ps 0 32)) := by
  set L := bitsVal ps 0 32 with hL
  have H : ∀ n p, 32 + 8 * L - 3 * p ≤ n → 3 * p < 32 + 8 * L →
      extractLoop cap (ps.drop (4 * p)) (genSt ps (3 * p))
        = .ok (extractedBytes ps L) := by
    intro n
    induction n with
    | zero =>
      intro p h hlt
      omega
    | succ n ih =>
      intro p hle hlt
      have hpix : 4 * p + 4 ≤ ps.length := by omega
      have hv0 : ps.getD (4 * p) 0 % 2 = chanLSB ps (3 * p) := by
        simpa using chanLSB_eq ps p 0 (by omega)
      have hv1 : ps.getD (4 * p + 1) 0 % 2 = chanLSB ps (3 * p + 1) :=
        chanLSB_eq ps p 1 (by omega)
      have hv2 : ps.getD (4 * p + 2) 0 % 2 = chanLSB ps (3 * p + 2) :=
        chanLSB_eq ps p 2 (by omega)
      by_cases hend : 32 + 8 * L ≤ 3 * p + 3
      · -- the final byte completes within this pixel
        rw [drop_four ps p hpix]
        rcases (by omega : 3 * p + 1 = 32 + 8 * L ∨ 3 * p + 2 = 32 + 8 * L ∨
            3 * p + 3 = 32 + 8 * L) with he | he | he
        · have h0 := chanStep_final cap ps (3 * p) (by omega) (by omega) _ hv0
          simp only [extractLoop, h0]
        · have h0 : chanStep cap (ps.getD (4 * p) 0) (genSt ps (3 * p))
              = .cont (genSt ps (3 * p + 1)) :=
            chanStep_data cap ps (3 * p) (by omega) (by omega) _ hv0
          have h1 := chanStep_final cap ps (3 * p + 1) (by omega) (by omega) _ hv1
          simp only [extractLoop, h0, h1]
        · have h0 : chanStep cap (ps.getD (4 * p) 0) (genSt ps (3 * p))
              = .cont (genSt ps (3 * p + 1)) :=
            chanStep_data cap ps (3 * p) (by omega) (by omega) _ hv0
          have h1 : chanStep cap (ps.getD (4 * p + 1) 0) (genSt ps (3 * p + 1))
              = .cont (genSt ps (3 * p + 2)) := by
            have := chanStep_data cap ps (3 * p + 1) (by omega) (by omega) _ hv1
            rwa [show 3 * p + 1 + 1 = 3 * p + 2 from by ring] at this
          have h2 := chanStep_final cap ps (3 * p + 2) (by omega) (by omega) _ hv2
          simp only [extractLoop, h0, h1, h2]
      · rw [extractLoop_pixel cap ps p hpix (Or.inl ⟨h31, hcap⟩) (by omega)]
        have := ih (p + 1) (by omega) (by omega)
        rwa [show 4 * (p + 1) = 4 * p + 4 from by ring,
          show 3 * (p + 1) = 3 * p + 3 from by ring] at this
  have h0 := H (32 + 8 * L) 0 (by omega) (by omega)
  have e : extractLoop cap (ps.drop (4 * 0)) (genSt ps (3 * 0)) = extractLoop cap ps extInit :=
    rfl
  rwa [e] at h0

/-- When the declared length is valid and nonzero but the channel stream is
too short, extraction reaches the end of the buffer and fails with
`incompleteErr`. -/
lemma extractLoop_incomplete (cap : Nat) (ps : List Nat) (h4 : ps.length % 4 = 0)
    (hone : 1 ≤ bitsVal ps 0 32) (h31 : bitsVal ps 0 32 < 2 ^ 31)
    (hcap : bitsVal ps 0 32 ≤ cap)
    (hins : 3 * (ps.length / 4) < 32 + 8 * bitsVal ps 0 32) :
    extractLoop cap ps extInit = .error incompleteErr := by
  set L := bitsVal ps 0 32 with hL
  have H : ∀ n p, ps.length - 4 * p ≤ n → 4 * p ≤ ps.length → 3 * p < 32 + 8 * L →
      extractLoop cap (ps.drop (4 * p)) (genSt ps (3 * p)) = .error incompleteErr := by
    intro n
    induction n with
    | zero =>
      intro p hle h4p hlt
      have hpe : 4 * p = ps.length := by omega
      rw [hpe, List.drop_length]
      rfl
    | succ n ih =>
      intro p hle h4p hlt
      by_cases hpe : 4 * p = ps.length
      · rw [hpe, List.drop_length]
        rfl
      · have hpix : 4 * p + 4 ≤ ps.length := by omega
        have hT3 : 3 * p + 3 < 32 + 8 * L := by omega
        rw [extractLoop_pixel cap ps p hpix (Or.inl ⟨h31, hcap⟩) hT3]
        have := ih (p + 1) (by omega) (by omega) (by omega)
        rwa [show 4 * (p + 1) = 4 * p + 4 from by ring,
          show 3 * (p + 1) = 3 * p + 3 from by ring] at this
  have h0 := H ps.length 0 (by omega) (by omega) (by omega)
  have e : extractLoop cap (ps.drop (4 * 0)) (genSt ps (3 * 0)) = extractLoop cap ps extInit :=
    rfl
  rwa [e] at h0

/-- Reconstructing a number from its big-endian bits: if the `c` channel
LSBs starting at `a` spell out `m` (MSB first), the accumulator recovers
`m`. -/
lemma bitsVal_of_num (ps : List Nat) (a c m : Nat) (hm : m < 2 ^ c)
    (hbits : ∀ j, j < c → chanLSB ps (a + j) = m / 2 ^ (c - 1 - j) % 2) :
    bitsVal ps a c = m := by
  have aux : ∀ k, k ≤ c → bitsVal ps a k = m / 2 ^ (c - k) := by
    intro k
    induction k with
    | zero =>
      intro _
      simp only [bitsVal, Nat.sub_zero]
      rw [Nat.div_eq_of_lt hm]
    | succ k ih =>
      intro hk
      have hkc : k < c := by omega
      simp only [bitsVal]
      rw [ih (by omega), hbits k hkc]
      have e1 : c - k = (c - 1 - k) + 1 := by omega
      have e2 : c - (k + 1) = c - 1 - k := by omega
      rw [e1, e2]
      rw [show m / 2 ^ ((c - 1 - k) + 1) = m / 2 ^ (c - 1 - k) / 2 from by
        rw [pow_succ, Nat.div_div_eq_div_mul]]
      omega
  have h := aux c le_rfl
  simpa using h

/-- Bit `j` of the low byte of `x` agrees with bit `j` of `x` for `j < 8`. -/
lemma mod256_div_bit (x j : Nat) (hj : j < 8) : x % 256 / 2 ^ j % 2 = x / 2 ^ j % 2 := by
  conv_rhs => rw [show x = 256 * (x / 256) + x % 256 from by omega]
  rw [show (256 : Nat) * (x / 256) = 2 ^ j * (2 ^ (8 - j) * (x / 256)) from by
    rw [← mul_assoc, ← pow_add, show j + (8 - j) = 8 from by omega]
    norm_num]
  rw [Nat.mul_add_div (by positivity)]
  have he : 2 ^ (8 - j) * (x / 256) % 2 = 0 := by
    rw [show (8 - j) = (7 - j) + 1 from by omega, pow_succ,
      show 2 ^ (7 - j) * 2 * (x / 256) = 2 * (2 ^ (7 - j) * (x / 256)) from by ring]
    exact Nat.mul_mod_right 2 _
  omega

/-- The bytes of the big-endian 32-bit encoding. -/
lemma u32be_getD (n q : Nat) (hq : q < 4) :
    (u32be n).getD q 0 = n / 2 ^ (24 - 8 * q) % 256 := by
  rcases (by omega : q = 0 ∨ q = 1 ∨ q = 2 ∨ q = 3) with h | h | h | h <;> subst h
  · rfl
  · rfl
  · rfl
  · show n % 256 = n / 2 ^ 0 % 256
    rw [pow_zero, Nat.div_one]

/-- Bit `k < 32` of the framed payload is bit `31 - k` of the length. -/
lemma bitAt_header (secret : List Nat) (hn : secret.length < 2 ^ 32) (k : Nat)
    (hk : k < 32) :
    bitAt (fullPayload secret) k = secret.length / 2 ^ (31 - k) % 2 := by
  unfold bitAt fullPayload
  rw [List.getD_append _ _ _ _ (by rw [u32be_length]; omega),
    u32be_getD _ _ (by omega), mod256_div_bit _ _ (by omega),
    Nat.div_div_eq_div_mul, ← pow_add,
    show 24 - 8 * (k / 8) + (7 - k % 8) = 31 - k from by omega]

/-- Bit `32 + 8 * d + j` of the framed payload is bit `7 - j` of payload
byte `d`. -/
lemma bitAt_data (secret : List Nat) (d j : Nat) (hj : j < 8) :
    bitAt (fullPayload secret) (32 + 8 * d + j) = secret.getD d 0 / 2 ^ (7 - j) % 2 := by
  unfold bitAt fullPayload
  rw [show (32 + 8 * d + j) / 8 = 4 + d from by omega,
    show (32 + 8 * d + j) % 8 = j from by omega,
    List.getD_append_right _ _ _ _ (by rw [u32be_length]; omega), u32be_length,
    show 4 + d - 4 = d from by omega]

/-- After embedding, the first `8 * fp.length` channel LSBs are exactly the
framed payload bits. -/
lemma chanLSB_embed (fp ps : List Nat) (hps4 : ps.length % 4 = 0) (k : Nat)
    (hk : k < 8 * fp.length) (hkl : 4 * (k / 3) + k % 3 < ps.length) :
    chanLSB (embedLoop fp 0 ps) k = bitAt fp k := by
  unfold chanLSB
  rw [embedLoop_getD fp ps.length ps le_rfl hps4 0 (4 * (k / 3) + k % 3) hkl,
    if_pos (by constructor <;> omega)]
  rw [writeLSB_mod_two _ _ (bitAt_lt_two _ _),
    show 0 + (3 * ((4 * (k / 3) + k % 3) / 4) + (4 * (k / 3) + k % 3) % 4) = k from by omega]

lemma getD_lt_of_forall (B : List Nat) (hB : ∀ v ∈ B, v < 256) (d : Nat) (hd : d < B.length) :
    B.getD d 0 < 256 := by
  rw [List.getD_eq_getElem _ _ hd]
  exact hB _ (List.getElem_mem hd)

/-- A continuing channel step never shrinks the accumulated bytes, and a
successful halt returns the accumulated bytes plus exactly one more. -/
lemma chanStep_bytes (cap v : Nat) (s : ExtSt) :
    (∀ s', chanStep cap v s = .cont s' → s.bytes.length ≤ s'.bytes.length) ∧
    (∀ r, chanStep cap v s = .halt (.ok r) → r.length = s.bytes.length + 1) := by
  obtain ⟨lh, lbr, ml, cb, bc, bts, mbr⟩ := s
  unfold chanStep
  rcases ml with _ | m
  · simp only
    split_ifs with h1 h2
    · exact ⟨fun x hx => absurd hx (by simp), fun r hr => absurd hr (by simp)⟩
    · refine ⟨fun x hx => ?_, fun r hr => absurd hr (by simp)⟩
      injection hx with hx'
      subst hx'
      simp
    · refine ⟨fun x hx => ?_, fun r hr => absurd hr (by simp)⟩
      injection hx with hx'
      subst hx'
      simp
  · simp only
    split_ifs with h1 h2
    · refine ⟨fun x hx => absurd hx (by simp), fun r hr => ?_⟩
      injection hr with hr'
      injection hr' with hr''
      subst hr''
      simp
    · refine ⟨fun x hx => ?_, fun r hr => absurd hr (by simp)⟩
      injection hx with hx'
      subst hx'
      simp
    · refine ⟨fun x hx => ?_, fun r hr => absurd hr (by simp)⟩
      injection hx with hx'
      subst hx'
      simp

lemma extractLoop_ok_bytes (cap : Nat) : ∀ (n : Nat) (ps : List Nat), ps.length ≤ n →
    ∀ s r, extractLoop cap ps s = .ok r → s.bytes.length < r.length := by
  intro n
  induction n with
  | zero =>
    intro ps h s r hr
    have hnil : ps = [] := List.length_eq_zero.mp (by omega)
    subst hnil
    simp [extractLoop] at hr
  | succ n ih =>
    intro ps h s r hr
    match ps with
    | [] => simp [extractLoop] at hr
    | [a] => simp [extractLoop] at hr
    | [a, b] => simp [extractLoop] at hr
    | [a, b, c] => simp [extractLoop] at hr
    | a :: b :: c :: d :: rest =>
      simp only [List.length_cons] at h
      simp only [extractLoop] at hr
      split at hr
      case _ r0 heq0 =>
        subst hr
        have := (chanStep_bytes cap a s).2 _ heq0
        omega
      case _ s1 heq0 =>
        have hb1 := (chanStep_bytes cap a s).1 _ heq0
        split at hr
        case _ r0 heq1 =>
          subst hr
          have := (chanStep_bytes cap b s1).2 _ heq1
          omega
        case _ s2 heq1 =>
          have hb2 := (chanStep_bytes cap b s1).1 _ heq1
          split at hr
          case _ r0 heq2 =>
            subst hr
            have := (chanStep_bytes cap c s2).2 _ heq2
            omega
          case _ s3 heq2 =>
            have hb3 := (chanStep_bytes cap c s2).1 _ heq2
            split at hr
            case _ m hm =>
              split at hr
              · exact absurd hr (by simp)
              · have := ih rest (by omega) s3 r hr
                omega
            case _ hm =>
              have := ih rest (by omega) s3 r hr
              omega

/-! ## Claims C2, C9, C10: the LSB round-trip and extraction errors -/

/-- Counterexample to C2 as stated: for the empty payload (which fits the
12-pixel image exactly), embedding succeeds but extraction does not return
the empty buffer — it throws the incomplete-extraction error. -/
theorem lsb_roundtrip_empty_cex :
    (embedLSBrun demoImg12 []).2 = none ∧
    4 + (0 : Nat) ≤ capacityBytes demoImg12.width demoImg12.height ∧
    extractLSB (embedLSBrun demoImg12 []).1 ≠ .ok ([] : List Nat) ∧
    extractLSB (embedLSBrun demoImg12 []).1 = .error incompleteErr := by decide

/-- C2 (amended): for every well-formed image and every byte buffer `B`
with `1 ≤ B.length < 2 ^ 31` and `4 + B.length` within capacity,
extraction after embedding succeeds and returns exactly `B`.  (The empty
buffer is excluded: extraction never returns an empty result; the `2 ^ 31`
bound keeps the declared length non-negative as a JS int32.) -/
theorem lsb_roundtrip (img : ImageData) (B : List Nat)
    (hwf : img.data.length = 4 * (img.width * img.height))
    (hB : ∀ v ∈ B, v < 256)
    (hone : 1 ≤ B.length) (h31 : B.length < 2 ^ 31)
    (hcap : 4 + B.length ≤ capacityBytes img.width img.height) :
    (embedLSBrun img B).2 = none ∧
    extractLSB (embedLSBrun img B).1 = .ok B := by
  rw [embedLSBrun_within img B hcap]
  refine ⟨rfl, ?_⟩
  have hn32 : B.length < 2 ^ 32 := by
    have h : (2 : Nat) ^ 31 < 2 ^ 32 := by norm_num
    omega
  have hfpl : (fullPayload B).length = 4 + B.length := fullPayload_length B
  have hlen' : (embedLoop (fullPayload B) 0 img.data).length = img.data.length :=
    embedLoop_length _ img.data.length img.data le_rfl 0
  have hcap8 : 8 * capacityBytes img.width img.height ≤ 3 * (img.width * img.height) := by
    unfold capacityBytes
    omega
  have hch : ∀ k, k < 8 * (fullPayload B).length →
      chanLSB (embedLoop (fullPayload B) 0 img.data) k = bitAt (fullPayload B) k := by
    intro k hk
    apply chanLSB_embed (fullPayload B) img.data (by rw [hwf]; omega) k hk
    rw [hwf]
    rw [hfpl] at hk
    omega
  have hL : bitsVal (embedLoop (fullPayload B) 0 img.data) 0 32 = B.length := by
    apply bitsVal_of_num _ _ _ _ hn32
    intro j hj
    rw [Nat.zero_add, hch j (by rw [hfpl]; omega), bitAt_header B hn32 j hj,
      show 32 - 1 - j = 31 - j from by omega]
  have hbyte : ∀ d, d < B.length →
      bitsVal (embedLoop (fullPayload B) 0 img.data) (32 + 8 * d) 8 = B.getD d 0 := by
    intro d hd
    apply bitsVal_of_num _ _ _ _ (by simpa using getD_lt_of_forall B hB d hd)
    intro j hj
    rw [hch (32 + 8 * d + j) (by rw [hfpl]; omega), bitAt_data B d j hj,
      show 8 - 1 - j = 7 - j from by omega]
  have hbytes : extractedBytes (embedLoop (fullPayload B) 0 img.data) B.length = B := by
    unfold extractedBytes
    apply List.ext_getElem (by simp)
    intro i h1i h2i
    simp only [List.getElem_map, List.getElem_range]
    rw [hbyte i (by simpa using h2i), List.getD_eq_getElem _ _ (by simpa using h2i)]
  show extractLoop (capacityBytes img.width img.height)
    (embedLoop (fullPayload B) 0 img.data) extInit = .ok B
  rw [extractLoop_ok (capacityBytes img.width img.height)
      (embedLoop (fullPayload B) 0 img.data)
      (by rw [hlen', hwf]; omega)
      (by rw [hL]; omega) (by rw [hL]; omega) (by rw [hL]; omega)
      (by rw [hL, hlen', hwf]; omega),
    hL, hbytes]

/-- Witness for the amended C2: a one-byte payload round-trips through a
14-pixel image. -/
theorem lsb_roundtrip_witness :
    (embedLSBrun demoImg [202]).2 = none ∧
    extractLSB (embedLSBrun demoImg [202]).1 = .ok [202] :=
  lsb_roundtrip demoImg [202] (by decide) (by decide) (by decide) (by decide) (by decide)

/-- C9 (amended): for every well-formed image of at least 11 pixels,
`extractLSB` throws `InvalidLengthHeader` iff the 32-bit length header `L`
is at least `2 ^ 31` (negative as a JS signed int32) or exceeds the
capacity.  (The claim's plain `L ≤ capacity` reading fails for images whose
capacity reaches `2 ^ 31`, because the source compares the header as a
signed 32-bit value.) -/
theorem extract_header_check_iff (img : ImageData)
    (hwf : img.data.length = 4 * (img.width * img.height))
    (hpx : 11 ≤ img.width * img.height) :
    (extractLSB img = .error invalidHeaderErr ↔
      2 ^ 31 ≤ bitsVal img.data 0 32 ∨
        capacityBytes img.width img.height < bitsVal img.data 0 32) := by
  unfold extractLSB
  constructor
  · intro h
    by_contra hc
    push_neg at hc
    obtain ⟨h31, hcap⟩ := hc
    rcases Nat.eq_zero_or_pos (bitsVal img.data 0 32) with h0 | h1
    · rw [extractLoop_len_zero _ _ h0 (by omega)] at h
      exact absurd h (by decide)
    · by_cases henough :
          32 + 8 * bitsVal img.data 0 32 ≤ 3 * (img.data.length / 4)
      · rw [extractLoop_ok _ _ (by omega) h1 h31 hcap henough] at h
        simp at h
      · rw [extractLoop_incomplete _ _ (by omega) h1 h31 hcap (by omega)] at h
        exact absurd h (by decide)
  · intro hbad
    exact extractLoop_invalid _ _ hbad (by omega)

/-- Witness for the amended C9 at a concrete image: the all-zero eleven
pixel image declares length 0, which is valid, so no header error. -/
theorem extract_header_check_iff_witness :
    extractLSB demoImg11 = .error invalidHeaderErr ↔
      2 ^ 31 ≤ bitsVal demoImg11.data 0 32 ∨
        capacityBytes demoImg11.width demoImg11.height < bitsVal demoImg11.data 0 32 :=
  extract_header_check_iff demoImg11 (by decide) (by decide)

/-- Counterexample to C9 as stated: a (model-valid, physically enormous)
image whose capacity exceeds `2 ^ 31` and whose length header reads exactly
`2 ^ 31`.  The unsigned reading satisfies `0 ≤ L ≤ capacity`, so the claim
says no `InvalidLengthHeader` — but the source treats the header as a
signed 32-bit value, sees it negative, and throws. -/
theorem extract_header_check_cex :
    hugeImg.data.length = 4 * (hugeImg.width * hugeImg.height) ∧
    11 ≤ hugeImg.width * hugeImg.height ∧
    bitsVal hugeImg.data 0 32 ≤ capacityBytes hugeImg.width hugeImg.height ∧
    extractLSB hugeImg = .error invalidHeaderErr := by
  have hdl : hugeImg.data.length = 3 * 2 ^ 33 := by
    show (1 :: List.replicate (3 * 2 ^ 33 - 1) 0).length = 3 * 2 ^ 33
    rw [List.length_cons, List.length_replicate]
    norm_num
  have hL : bitsVal hugeImg.data 0 32 = 2 ^ 31 := by
    apply bitsVal_of_num _ _ _ _ (by norm_num)
    intro j hj
    rw [Nat.zero_add]
    rcases Nat.eq_zero_or_pos j with h0 | h1
    · subst h0
      show chanLSB hugeImg.data 0 = 2 ^ 31 / 2 ^ 31 % 2
      rw [Nat.div_self (by positivity)]
      rfl
    · have hidx : 1 ≤ 4 * (j / 3) + j % 3 ∧ 4 * (j / 3) + j % 3 ≤ 43 := by omega
      obtain ⟨i, hi⟩ : ∃ i, 4 * (j / 3) + j % 3 = i + 1 :=
        ⟨4 * (j / 3) + j % 3 - 1, by omega⟩
      unfold chanLSB
      show (1 :: List.replicate (3 * 2 ^ 33 - 1) 0).getD (4 * (j / 3) + j % 3) 0 % 2 = _
      rw [hi, List.getD_cons_succ]
      rw [show (List.replicate (3 * 2 ^ 33 - 1) 0).getD i 0 = 0 from by
        rw [List.getD_eq_getElem?_getD, List.getElem?_getD_replicate_default_eq]]
      rw [Nat.pow_div (by omega) (by omega),
        show 2 ^ (31 - (31 - j)) = 2 ^ ((j - 1) + 1) from by congr 1; omega, pow_succ,
        Nat.mul_mod_left]
  refine ⟨?_, ?_, ?_, ?_⟩
  · rw [hdl]
    show 3 * 2 ^ 33 = 4 * (3 * 2 ^ 16 * 2 ^ 15)
    norm_num
  · show (11 : Nat) ≤ 3 * 2 ^ 16 * 2 ^ 15
    norm_num
  · rw [hL]
    show (2 : Nat) ^ 31 ≤ 3 * 2 ^ 16 * 2 ^ 15 * 3 / 8
    norm_num
  · exact extractLoop_invalid _ _ (Or.inl (by rw [hL])) (by rw [hdl]; norm_num)

/-- C10: `extractLSB` never returns a zero-length buffer — every successful
return happens right after a full byte is pushed — and on any well-formed
image of at least 11 pixels whose first 32 length bits decode to 0 it
throws the incomplete-extraction error. -/
theorem extract_never_empty (img : ImageData) :
    (∀ r, extractLSB img = .ok r → 1 ≤ r.length) ∧
    (img.data.length = 4 * (img.width * img.height) → 11 ≤ img.width * img.height →
      bitsVal img.data 0 32 = 0 → extractLSB img = .error incompleteErr) := by
  constructor
  · intro r hr
    have h := extractLoop_ok_bytes (capacityBytes img.width img.height)
      img.data.length img.data le_rfl extInit r hr
    simpa [extInit] using h
  · intro hwf hpx hL
    exact extractLoop_len_zero _ _ hL (by omega)

/-- Witness for C10: the all-zero 11-pixel image declares length 0 and
extraction throws the incomplete-extraction error. -/
theorem extract_never_empty_witness :
    extractLSB demoImg11 = .error incompleteErr :=
  (extract_never_empty demoImg11).2 (by decide) (by decide) (by decide)

